import Mathlib

/-!
Verification of the sudoku solver/generator core (src/board.rs, src/pos_util.rs,
src/puzzle.rs) against its natural-language specification.

The embedding below translates the Rust source into executable Lean functions:
* machine integers become `Nat` (all quantities involved are small and
  non-negative, no overflow is reachable);
* the board `[u8; 81]` becomes a `List Nat` of length 81;
* the per-cell domain bitsets `[[bool; 9]; 81]` become `List (List Bool)`;
* the `HashSet<usize>` of empty positions becomes a `List Nat`.  Every use of
  the set inside the solver is order-insensitive (the candidate list in
  `get_empty_position` is sorted before use, and the folds in `get_possible`
  and `still_possible` are commutative aggregations), so the list is kept in
  ascending insertion order.  The single order-sensitive use — the
  `Vec::from_iter` in `SudokuBoard::generate` — is modelled with the iteration
  order as an explicit parameter, see `perturbChoice` below;
* recursion in the backtracking search is bounded by an explicit fuel
  argument.  Each nested recursive call of the search fills one empty cell
  (the chosen position is removed from the empty set by `update_domains`), so
  the nesting depth is at most `SIZE + 1`; the search entry points pass
  exactly that fuel, hence the fuel never runs out on the modelled boards.
-/

/-- `N` from src/lib.rs. -/
def N : Nat := 3

/-- `N2 = N * N` from src/lib.rs. -/
def N2 : Nat := N * N

/-- `SIZE = N2 * N2` from src/lib.rs. -/
def SIZE : Nat := N2 * N2

theorem N2_eq : N2 = 9 := rfl

theorem SIZE_eq : SIZE = 81 := rfl

/-- `pos_util::to_pos`. -/
def toPos (row col : Nat) : Nat := row * N2 + col

/-- `pos_util::to_row_col`. -/
def toRowCol (pos : Nat) : Nat × Nat := (pos / N2, pos % N2)

/-- The `Phase` enum of `AdjacentPositionsIterator` in src/pos_util.rs. -/
inductive Phase where
  | Row
  | Column
  | Group
  | End
deriving DecidableEq

/-- The phase transition performed at the top of `AdjacentPositionsIterator::next`
when the cursor `i` has run past `N2`. -/
def Phase.advance : Phase → Phase
  | .Row => .Column
  | .Column => .Group
  | .Group => .End
  | .End => .End

/-- State of `AdjacentPositionsIterator` (src/pos_util.rs). -/
structure AdjIter where
  i : Nat
  row : Nat
  col : Nat
  groupRow : Nat
  groupCol : Nat
  phase : Phase
  count : Nat
deriving DecidableEq

/-- `AdjacentPositionsIterator::new`. -/
def AdjIter.new (row col : Nat) : AdjIter :=
  { i := 0, row := row, col := col
    groupRow := row - row % N, groupCol := col - col % N
    phase := Phase.Row, count := 0 }

/-- `AdjacentPositionsIterator::next`.  The Rust method calls itself to skip
over the excluded cells; the number of nested self-calls within one `next`
is bounded by the block size plus the phase changes, so a fuel of 64 is far
more than the Rust recursion ever uses and the `none` fuel-exhaustion branch
is unreachable from the states produced by `AdjIter.new`. -/
def adjNext : Nat → AdjIter → Option (Nat × AdjIter)
  | 0, _ => none
  | fuel + 1, st0 =>
    let st := if st0.i ≥ N2 then { st0 with phase := st0.phase.advance, i := 0 } else st0
    match st.phase with
    | Phase.Row =>
      if st.i = st.col then adjNext fuel { st with i := st.i + 1 }
      else some (toPos st.row st.i, { st with i := st.i + 1, count := st.count + 1 })
    | Phase.Column =>
      if st.i = st.row then adjNext fuel { st with i := st.i + 1 }
      else some (toPos st.i st.col, { st with i := st.i + 1, count := st.count + 1 })
    | Phase.Group =>
      let gRow := st.i / N
      let gCol := st.i % N
      let row := st.groupRow + gRow
      let col := st.groupCol + gCol
      if row = st.row ∨ col = st.col then adjNext fuel { st with i := st.i + 1 }
      else some (toPos row col, { st with i := st.i + 1, count := st.count + 1 })
    | Phase.End => none

/-- Collects the elements produced by repeatedly calling `adjNext`, i.e. the
sequence of items yielded by the Rust iterator.  The iterator yields 20 items
for a 9x9 board, so 32 pulls always reach the `End` phase. -/
def adjEmit : Nat → AdjIter → List Nat
  | 0, _ => []
  | k + 1, st =>
    match adjNext 64 st with
    | none => []
    | some (p, st1) => p :: adjEmit k st1

/-- `pos_util::adjacent_positions`, as the list of positions the iterator
yields, in iteration order. -/
def adjacentList (pos : Nat) : List Nat :=
  let rc := toRowCol pos
  adjEmit 32 (AdjIter.new rc.1 rc.2)

/-- The board: `SudokuBoard([u8; SIZE])`, row-major, 0 = empty. -/
abbrev SudokuBoard := List Nat

/-- Reading a cell (`self.0[pos]`). -/
def getCell (b : SudokuBoard) (pos : Nat) : Nat := b.getD pos 0

/-- Writing a cell (`self.0[pos] = v`). -/
def setCell (b : SudokuBoard) (pos v : Nat) : SudokuBoard := b.set pos v

/-- The `Domains` struct of src/board.rs: per-cell candidate bitsets plus the
set of currently empty positions (kept as an ascending list, see the header
comment). -/
structure Domains where
  domains : List (List Bool)
  emptyPositions : List Nat
deriving DecidableEq

/-- Access to `domains[pos]`. -/
def domainsGet (d : Domains) (pos : Nat) : List Bool := d.domains.getD pos []

/-- `Domains::update_domains` (without the `assert!(value > 0)`; the assertion
is modelled by `updateDomainsA` below): clear bit `value - 1` in every
adjacent cell's domain and remove `pos` from the empty set. -/
def updateDomains (d : Domains) (pos value : Nat) : Domains :=
  { domains :=
      (adjacentList pos).foldl
        (fun ds p => ds.set p ((ds.getD p []).set (value - 1) false)) d.domains
    emptyPositions := d.emptyPositions.erase pos }

/-- `Domains::calculate_domains`: for each cell in order, an assigned cell gets
an all-false domain and propagates its value; an empty cell is recorded in the
empty set. -/
def calculateDomains (b : SudokuBoard) : Domains :=
  (List.range SIZE).foldl
    (fun d pos =>
      let value := getCell b pos
      if value ≠ 0 then
        updateDomains { d with domains := d.domains.set pos (List.replicate N2 false) } pos value
      else
        { d with emptyPositions := d.emptyPositions ++ [pos] })
    { domains := List.replicate SIZE (List.replicate N2 true), emptyPositions := [] }

/-- The candidate count of a cell: the fold
`domains[pos].iter().fold(0, |acc, &x| acc + if x { 1 } else { 0 })` used in
`get_empty_position` and `still_possible`. -/
def countCandidates (d : Domains) (pos : Nat) : Nat :=
  (domainsGet d pos).foldl (fun acc x => acc + if x then 1 else 0) 0

/-- Lexicographic comparison on `(usize, usize)` pairs, the order used by
`sort_unstable` on the tuple vectors in `get_empty_position` and
`get_possible`. -/
def lexLe (a b : Nat × Nat) : Bool :=
  Nat.blt a.1 b.1 || (Nat.beq a.1 b.1 && Nat.ble a.2 b.2)

/-- Sorted insertion for `sortPairs`. -/
def insertPair (a : Nat × Nat) : List (Nat × Nat) → List (Nat × Nat)
  | [] => [a]
  | b :: l => if lexLe a b then a :: b :: l else b :: insertPair a l

/-- `sort_unstable` on a vector of `(usize, usize)` pairs.  All pairs occurring
in the solver have distinct second components, so the sorted result is the
same list for any correct sorting algorithm; insertion sort is used here. -/
def sortPairs : List (Nat × Nat) → List (Nat × Nat)
  | [] => []
  | a :: l => insertPair a (sortPairs l)

/-- `SudokuBoard::get_empty_position`: minimum-remaining-values choice with the
fewest-empty-neighbours tie-break once the tie set exceeds `minTieToSolve`.
`usize::MAX` is modelled by 1000000000; any bound above 20 (the number of
adjacent cells) behaves identically. -/
def getEmptyPosition (b : SudokuBoard) (d : Domains) (minTieToSolve : Nat) : Option Nat :=
  let values := sortPairs (d.emptyPositions.map (fun pos => (countCandidates d pos, pos)))
  match values with
  | [] => none
  | (mn, minIndex) :: _ =>
    let tied := values.takeWhile (fun q => q.1 == mn)
    if tied.length > minTieToSolve then
      some ((tied.foldl
        (fun acc q =>
          let posRestrictions :=
            (adjacentList q.2).foldl (fun r p => if getCell b p = 0 then r + 1 else r) 0
          if posRestrictions < acc.1 then (posRestrictions, q.2) else acc)
        (1000000000, minIndex)).2)
    else some minIndex

/-- `iter().enumerate()` on a list, starting at index `n`. -/
def withIdx (n : Nat) : List α → List (Nat × α)
  | [] => []
  | x :: l => (n, x) :: withIdx (n + 1) l

/-- The `possible` vector computed at the start of `get_possible`: the digits
whose bit is still set in `domains[pos]`, ascending. -/
def possibleValues (d : Domains) (pos : Nat) : List Nat :=
  ((withIdx 0 (domainsGet d pos)).filter (fun q => q.2)).map (fun q => q.1 + 1)

/-- The per-digit fold inside `get_possible`: starting from `[0; N2]`, for
every empty cell add 1 at index `i` when the cell's domain excludes digit
`i + 1`. -/
def getPossibleCounts (d : Domains) : List Nat :=
  d.emptyPositions.foldl
    (fun acc p => List.zipWith (fun a x => a + if x then 0 else 1) acc (domainsGet d p))
    (List.replicate N2 0)

/-- The `values` vector built inside `get_possible`: the counts paired with
their digit, restricted to the candidates of `pos`. -/
def getPossibleRanked (d : Domains) (pos : Nat) : List (Nat × Nat) :=
  ((withIdx 0 (getPossibleCounts d)).map (fun q => (q.2, q.1 + 1))).filter
    (fun q => (possibleValues d pos).contains q.2)

/-- `SudokuBoard::get_possible`: the candidate digits of `pos`; if there are
more than `minPossibleOrdered` of them, they are reordered ascending by the
per-digit count, over all empty cells, of domains that exclude the digit
(ties broken by digit, since the sorted pairs are `(count, digit)`). -/
def getPossible (_board : SudokuBoard) (pos : Nat) (d : Domains) (minPossibleOrdered : Nat) :
    List Nat :=
  let possible := possibleValues d pos
  if possible.length > minPossibleOrdered then
    (sortPairs (getPossibleRanked d pos)).map (fun q => q.2)
  else possible

/-- `SudokuBoard::still_possible`: no empty cell has an empty domain. -/
def stillPossible (d : Domains) : Bool :=
  !(d.emptyPositions.any (fun pos => countCandidates d pos == 0))

/-- `SudokuBoard::is_valid`: no adjacent cell currently holds `n`. -/
def isValid (b : SudokuBoard) (pos n : Nat) : Bool :=
  (adjacentList pos).all (fun p => !(n == getCell b p))

/-- The candidate loop of `SudokuBoard::backtracking_count`, over the remaining
candidate list.  `recur` is the recursive search call; on backtrack the
original `b` and `d` are reused, which models the clone-and-restore of the
domains and the cell reset in the Rust code. -/
def btCountLoop (recur : SudokuBoard → Domains → Nat → Nat) (b : SudokuBoard) (pos : Nat)
    (d : Domains) (maxSolutions : Nat) : List Nat → Nat → Nat
  | [], count => count
  | n :: ns, count =>
    if count ≥ maxSolutions then count
    else if isValid b pos n then
      let b1 := setCell b pos n
      let d1 := updateDomains d pos n
      let count1 := if stillPossible d1 then recur b1 d1 count else count
      btCountLoop recur b pos d maxSolutions ns count1
    else btCountLoop recur b pos d maxSolutions ns count

/-- `SudokuBoard::backtracking_count`, with fuel (see the header comment). -/
def btCount : Nat → SudokuBoard → Domains → Nat → Nat → Nat
  | 0, _, _, _, count => count
  | fuel + 1, b, d, maxSolutions, count =>
    match getEmptyPosition b d (SIZE / 2) with
    | none => 1 + count
    | some pos =>
      btCountLoop (fun b1 d1 c => btCount fuel b1 d1 maxSolutions c) b pos d maxSolutions
        (getPossible b pos d N) count

/-- `SudokuBoard::count_solutions`. -/
def countSolutions (b : SudokuBoard) (maxSolutions : Nat) : Nat :=
  btCount (SIZE + 1) b (calculateDomains b) maxSolutions 0

/-- The candidate loop of `SudokuBoard::backtracking`; on success the solved
board is returned (the Rust search leaves it in `self`). -/
def btSolveLoop (recur : SudokuBoard → Domains → Bool × SudokuBoard) (b : SudokuBoard)
    (pos : Nat) (d : Domains) : List Nat → Bool × SudokuBoard
  | [] => (false, setCell b pos 0)
  | n :: ns =>
    if isValid b pos n then
      let b1 := setCell b pos n
      let d1 := updateDomains d pos n
      if stillPossible d1 then
        let r := recur b1 d1
        if r.1 then r else btSolveLoop recur b pos d ns
      else btSolveLoop recur b pos d ns
    else btSolveLoop recur b pos d ns

/-- `SudokuBoard::backtracking`, with fuel. -/
def btSolve : Nat → SudokuBoard → Domains → Bool × SudokuBoard
  | 0, b, _ => (false, b)
  | fuel + 1, b, d =>
    match getEmptyPosition b d (SIZE / 2) with
    | none => (true, b)
    | some pos => btSolveLoop (fun b1 d1 => btSolve fuel b1 d1) b pos d (getPossible b pos d N)

/-- `SudokuBoard::solve`: result flag and the board after the call. -/
def solve (b : SudokuBoard) : Bool × SudokuBoard :=
  btSolve (SIZE + 1) b (calculateDomains b)

/-- The candidate loop of `SudokuBoard::backtracking_all`. -/
def btAllLoop
    (recur : SudokuBoard → Domains → Nat → List SudokuBoard → Nat × List SudokuBoard)
    (b : SudokuBoard) (pos : Nat) (d : Domains) (maxSolutions : Nat) :
    List Nat → Nat → List SudokuBoard → Nat × List SudokuBoard
  | [], count, sols => (count, sols)
  | n :: ns, count, sols =>
    if count ≥ maxSolutions then (count, sols)
    else if isValid b pos n then
      let b1 := setCell b pos n
      let d1 := updateDomains d pos n
      let r := if stillPossible d1 then recur b1 d1 count sols else (count, sols)
      btAllLoop recur b pos d maxSolutions ns r.1 r.2
    else btAllLoop recur b pos d maxSolutions ns count sols

/-- `SudokuBoard::backtracking_all`, with fuel. -/
def btAll : Nat → SudokuBoard → Domains → Nat → Nat → List SudokuBoard → Nat × List SudokuBoard
  | 0, _, _, _, count, sols => (count, sols)
  | fuel + 1, b, d, maxSolutions, count, sols =>
    match getEmptyPosition b d (SIZE / 2) with
    | none => (1 + count, sols ++ [b])
    | some pos =>
      btAllLoop (fun b1 d1 c s => btAll fuel b1 d1 maxSolutions c s) b pos d maxSolutions
        (getPossible b pos d N) count sols

/-- `SudokuBoard::solve_all`. -/
def solveAll (b : SudokuBoard) (maxSolutions : Nat) : List SudokuBoard :=
  (btAll (SIZE + 1) b (calculateDomains b) maxSolutions 0 []).2

/-- The hole-digging loop of `Generator::generate` (src/puzzle.rs lines
161-176): visit `positions` in order; clear each cell; when `unique` is
requested, keep the removal only if `count_solutions(2) == 1`, otherwise put
the value back; stop early once `emptyTarget` cells have been removed.
Returns the puzzle board and the removed count. -/
def digLoop (unique : Bool) : List Nat → SudokuBoard → Nat → Nat → SudokuBoard × Nat
  | [], puzzle, removed, _ => (puzzle, removed)
  | pos :: positions, puzzle, removed, emptyTarget =>
    let val := getCell puzzle pos
    let puzzle1 := setCell puzzle pos 0
    if !unique || countSolutions puzzle1 2 == 1 then
      let removed1 := removed + 1
      if removed1 ≥ emptyTarget then (puzzle1, removed1)
      else digLoop unique positions puzzle1 removed1 emptyTarget
    else digLoop unique positions (setCell puzzle1 pos val) removed emptyTarget

/-- The hole-digging phase of `Generator::generate`, starting from the solved
board with a removed-count of 0.  The shuffled removal order and the
difficulty's target empty-cell count are parameters: they abstract the seeded
rng and the configured difficulty. -/
def digHoles (unique : Bool) (solution : SudokuBoard) (positions : List Nat)
    (emptyTarget : Nat) : SudokuBoard × Nat :=
  digLoop unique positions solution 0 emptyTarget

/-- Row peers of a cell, described by the spec: all cells of the row
left-to-right, skipping the cell itself. -/
def rowPeers (row col : Nat) : List Nat :=
  ((List.range N2).filter (fun i => !(i == col))).map (fun i => toPos row i)

/-- Column peers of a cell, described by the spec: all cells of the column
top-to-bottom, skipping the cell itself. -/
def colPeers (row col : Nat) : List Nat :=
  ((List.range N2).filter (fun i => !(i == row))).map (fun i => toPos i col)

/-- Remaining block peers, described by the spec: the cells of the containing
3x3 block in row-major block order, skipping any cell sharing the row or the
column of the given cell. -/
def blockPeers (row col : Nat) : List Nat :=
  (((List.range N2).map (fun gi => (row - row % N + gi / N, col - col % N + gi % N))).filter
    (fun rc => !(rc.1 == row) && !(rc.2 == col))).map (fun rc => toPos rc.1 rc.2)

/-- The peer list in the order required by the spec (refinement reference for
claim C5): row peers, then column peers, then remaining block peers. -/
def specPeerList (pos : Nat) : List Nat :=
  rowPeers (pos / N2) (pos % N2) ++ colPeers (pos / N2) (pos % N2) ++
    blockPeers (pos / N2) (pos % N2)

/-- Number of bytes of the UTF-8 encoding of a character; `str::len` in Rust
counts bytes, so the length check in `TryFrom<&str>` compares this sum with
`SIZE`. -/
def charLen (c : Char) : Nat :=
  if c.toNat ≤ 0x7F then 1 else if c.toNat ≤ 0x7FF then 2 else if c.toNat ≤ 0xFFFF then 3 else 4

/-- `str::len`: the UTF-8 byte length of a string. -/
def strByteLen (s : List Char) : Nat := (s.map charLen).sum

/-- `char::to_digit(10)`: `some d` exactly for the ASCII digits. -/
def toDigit10 (c : Char) : Option Nat :=
  if '0' ≤ c ∧ c ≤ '9' then some (c.toNat - '0'.toNat) else none

/-- The character-mapping-and-collect step of `TryFrom<&str> for SudokuBoard`:
a dot becomes 0, a decimal digit becomes its value, anything else stops the
parse with the first error. -/
def parseCells : List Char → Except String (List Nat)
  | [] => Except.ok []
  | c :: cs =>
    match (if c = '.' then Except.ok 0 else
      match toDigit10 c with
      | some d => Except.ok d
      | none => Except.error "Invalid character") with
    | Except.error e => Except.error e
    | Except.ok v =>
      match parseCells cs with
      | Except.error e => Except.error e
      | Except.ok vs => Except.ok (v :: vs)

/-- `TryFrom<&str> for SudokuBoard`: byte-length check, character mapping,
then the `Vec -> [u8; SIZE] -> SudokuBoard` conversion chain, which re-checks
the length and that every value is at most `N2`. -/
def tryFromStr (s : List Char) : Except String (List Nat) :=
  if strByteLen s ≠ SIZE then Except.error "Invalid str len, must be SIZE"
  else
    match parseCells s with
    | Except.error e => Except.error e
    | Except.ok v =>
      if v.length = SIZE then
        if v.all (fun dd => dd ≤ N2) then Except.ok v
        else Except.error "Values must be between 0 and sqrt(SIZE)"
      else Except.error "Could not convert slice to array"

instance : DecidableEq (Except String (List Nat)) := fun a b =>
  match a, b with
  | Except.ok x, Except.ok y =>
    if h : x = y then isTrue (by rw [h]) else isFalse (by simp [h])
  | Except.error e, Except.error f =>
    if h : e = f then isTrue (by rw [h]) else isFalse (by simp [h])
  | Except.ok _, Except.error _ => isFalse (by simp)
  | Except.error _, Except.ok _ => isFalse (by simp)

/-- One cell of `SudokuBoard::to_line_string`: 0 prints as a dot, a digit
prints as its decimal character.  (For values 10 and above the Rust code would
print several characters; such values never occur on a valid board and are
outside every claim, so they are mapped to a placeholder here.) -/
def renderCell (v : Nat) : Char :=
  match v with
  | 0 => '.'
  | 1 => '1'
  | 2 => '2'
  | 3 => '3'
  | 4 => '4'
  | 5 => '5'
  | 6 => '6'
  | 7 => '7'
  | 8 => '8'
  | 9 => '9'
  | _ => '?'

/-- `SudokuBoard::to_line_string`. -/
def toLineString (b : SudokuBoard) : List Char := b.map renderCell

/-- The metric named by claim C7: the number of other empty cells that would
lose digit `v` from their domain if `v` were placed at `pos` — i.e. the empty
adjacent cells whose domain still contains `v`.  (Refinement reference; the
code computes a different metric, see `alreadyMissingCount`.) -/
def lcvWouldLose (b : SudokuBoard) (pos : Nat) (d : Domains) (v : Nat) : Nat :=
  ((adjacentList pos).filter
    (fun p => getCell b p == 0 && (domainsGet d p).getD (v - 1) false)).length

/-- The candidate order claimed by C7: candidates ranked ascending by
`lcvWouldLose`, ties by digit. -/
def claimLcvOrder (b : SudokuBoard) (pos : Nat) (d : Domains) : List Nat :=
  (sortPairs ((possibleValues d pos).map (fun v => (lcvWouldLose b pos d v, v)))).map
    (fun q => q.2)

/-- The metric the code actually sorts by when ordering candidate values: the
number of empty cells anywhere on the board whose domain already excludes the
digit. -/
def alreadyMissingCount (d : Domains) (v : Nat) : Nat :=
  (d.emptyPositions.filter (fun p => !((domainsGet d p).getD (v - 1) true))).length

/-- Membership test of a position in one of the three diagonal blocks filled
by the first phase of `SudokuBoard::generate`. -/
def inDiagonalBlock (pos : Nat) : Bool := (pos / N2) / N == (pos % N2) / N

/-- The empty positions of a diagonal-blocks-filled board in ascending order.
`SudokuBoard::generate` materialises this set with
`Vec::from_iter(domains.empty_positions.iter().cloned())`, where
`empty_positions` is a `std::collections::HashSet` whose iteration order is
randomized per instance; the vector's order is therefore not a function of the
seed, and it is modelled as an explicit parameter below. -/
def diagEmptyAsc : List Nat := (List.range SIZE).filter (fun p => !(inDiagonalBlock p))

/-- The first cell selected by the perturbation phase of
`SudokuBoard::generate`: `empty_positions.remove(rng.gen_range(0..len))`,
as a function of the hash-set iteration order `emptyVec` and of the (seeded,
deterministic) random index. -/
def perturbChoice (emptyVec : List Nat) (ridx : Nat) : Nat := emptyVec.getD ridx 0

/-- `Domains::update_domains` with its `assert!(value > 0)` modelled:
the call evaluates to `none` exactly when the assertion would panic. -/
def updateDomainsA (d : Domains) (pos value : Nat) : Option Domains :=
  if 1 ≤ value then some (updateDomains d pos value) else none

/-- `Domains::calculate_domains` with the assertion of `update_domains`
modelled (it is called for every assigned cell). -/
def calculateDomainsA (b : SudokuBoard) : Option Domains :=
  (List.range SIZE).foldl
    (fun od pos => od.bind (fun d =>
      let value := getCell b pos
      if value ≠ 0 then
        updateDomainsA { d with domains := d.domains.set pos (List.replicate N2 false) } pos
          value
      else some { d with emptyPositions := d.emptyPositions ++ [pos] }))
    (some { domains := List.replicate SIZE (List.replicate N2 true), emptyPositions := [] })

/-- The candidate loop of `backtracking_count` with the assertion of
`update_domains` modelled. -/
def btCountLoopA (recur : SudokuBoard → Domains → Nat → Option Nat) (b : SudokuBoard)
    (pos : Nat) (d : Domains) (maxSolutions : Nat) : List Nat → Nat → Option Nat
  | [], count => some count
  | n :: ns, count =>
    if count ≥ maxSolutions then some count
    else if isValid b pos n then
      match updateDomainsA d pos n with
      | none => none
      | some d1 =>
        let b1 := setCell b pos n
        match (if stillPossible d1 then recur b1 d1 count else some count) with
        | none => none
        | some count1 => btCountLoopA recur b pos d maxSolutions ns count1
    else btCountLoopA recur b pos d maxSolutions ns count

/-- `backtracking_count` with the assertion of `update_domains` modelled. -/
def btCountA : Nat → SudokuBoard → Domains → Nat → Nat → Option Nat
  | 0, _, _, _, count => some count
  | fuel + 1, b, d, maxSolutions, count =>
    match getEmptyPosition b d (SIZE / 2) with
    | none => some (1 + count)
    | some pos =>
      btCountLoopA (fun b1 d1 c => btCountA fuel b1 d1 maxSolutions c) b pos d maxSolutions
        (getPossible b pos d N) count

/-- `count_solutions` with every internal assertion modelled: `none` would
mean a panic. -/
def countSolutionsA (b : SudokuBoard) (maxSolutions : Nat) : Option Nat :=
  (calculateDomainsA b).bind (fun d => btCountA (SIZE + 1) b d maxSolutions 0)

/-- The candidate loop of `backtracking` with the assertion of
`update_domains` modelled. -/
def btSolveLoopA (recur : SudokuBoard → Domains → Option (Bool × SudokuBoard))
    (b : SudokuBoard) (pos : Nat) (d : Domains) : List Nat → Option (Bool × SudokuBoard)
  | [] => some (false, setCell b pos 0)
  | n :: ns =>
    if isValid b pos n then
      match updateDomainsA d pos n with
      | none => none
      | some d1 =>
        let b1 := setCell b pos n
        if stillPossible d1 then
          match recur b1 d1 with
          | none => none
          | some r => if r.1 then some r else btSolveLoopA recur b pos d ns
        else btSolveLoopA recur b pos d ns
    else btSolveLoopA recur b pos d ns

/-- `backtracking` with the assertion of `update_domains` modelled. -/
def btSolveA : Nat → SudokuBoard → Domains → Option (Bool × SudokuBoard)
  | 0, b, _ => some (false, b)
  | fuel + 1, b, d =>
    match getEmptyPosition b d (SIZE / 2) with
    | none => some (true, b)
    | some pos =>
      btSolveLoopA (fun b1 d1 => btSolveA fuel b1 d1) b pos d (getPossible b pos d N)

/-- `solve` with every internal assertion modelled. -/
def solveA (b : SudokuBoard) : Option (Bool × SudokuBoard) :=
  (calculateDomainsA b).bind (fun d => btSolveA (SIZE + 1) b d)

/-- The candidate loop of `backtracking_all` with the assertion of
`update_domains` modelled. -/
def btAllLoopA
    (recur : SudokuBoard → Domains → Nat → List SudokuBoard →
      Option (Nat × List SudokuBoard))
    (b : SudokuBoard) (pos : Nat) (d : Domains) (maxSolutions : Nat) :
    List Nat → Nat → List SudokuBoard → Option (Nat × List SudokuBoard)
  | [], count, sols => some (count, sols)
  | n :: ns, count, sols =>
    if count ≥ maxSolutions then some (count, sols)
    else if isValid b pos n then
      match updateDomainsA d pos n with
      | none => none
      | some d1 =>
        let b1 := setCell b pos n
        match (if stillPossible d1 then recur b1 d1 count sols else some (count, sols)) with
        | none => none
        | some r => btAllLoopA recur b pos d maxSolutions ns r.1 r.2
    else btAllLoopA recur b pos d maxSolutions ns count sols

/-- `backtracking_all` with the assertion of `update_domains` modelled. -/
def btAllA : Nat → SudokuBoard → Domains → Nat → Nat → List SudokuBoard →
    Option (Nat × List SudokuBoard)
  | 0, _, _, _, count, sols => some (count, sols)
  | fuel + 1, b, d, maxSolutions, count, sols =>
    match getEmptyPosition b d (SIZE / 2) with
    | none => some (1 + count, sols ++ [b])
    | some pos =>
      btAllLoopA (fun b1 d1 c s => btAllA fuel b1 d1 maxSolutions c s) b pos d maxSolutions
        (getPossible b pos d N) count sols

/-- `solve_all` with every internal assertion modelled. -/
def solveAllA (b : SudokuBoard) (maxSolutions : Nat) : Option (List SudokuBoard) :=
  (calculateDomainsA b).bind (fun d =>
    (btAllA (SIZE + 1) b d maxSolutions 0 []).map (fun r => r.2))

/-- The all-ones board: 81 cells, every cell 1.  It is full (no empty cell)
and contradictory (every row repeats a digit). -/
def allOnes : SudokuBoard := List.replicate SIZE 1

/-- The concrete board used to separate the code's value ordering from the
ordering stated in claim C7 (12 filled cells; the minimum-remaining-values
choice on it is cell 11, which has the four candidates 2, 3, 4, 7). -/
def b7 : SudokuBoard :=
  [0, 9, 0, 0, 0, 1, 0, 0, 0,
   0, 0, 0, 0, 0, 0, 0, 6, 0,
   0, 1, 5, 2, 0, 0, 0, 0, 0,
   0, 0, 8, 0, 0, 0, 0, 0, 0,
   0, 0, 1, 0, 0, 0, 0, 9, 4,
   0, 0, 0, 0, 0, 0, 0, 0, 0,
   0, 0, 0, 0, 0, 0, 0, 0, 0,
   0, 0, 0, 7, 0, 0, 1, 0, 0,
   0, 0, 0, 0, 0, 0, 0, 0, 0]

/-- The parse-time counterexample string of claim C6: a zero character
followed by 80 dots. -/
def zeroDotString : List Char := '0' :: List.replicate 80 '.'

/-! ### Helper lemmas about the sorting used by the solver -/

theorem lexLe_iff (a b : Nat × Nat) :
    lexLe a b = true ↔ (a.1 < b.1 ∨ (a.1 = b.1 ∧ a.2 ≤ b.2)) := by
  simp [lexLe, Nat.blt_eq, Nat.ble_eq, Nat.beq_eq_true_eq]

theorem lexLe_total (a b : Nat × Nat) : lexLe a b = true ∨ lexLe b a = true := by
  rw [lexLe_iff, lexLe_iff]
  omega

theorem lexLe_trans {a b c : Nat × Nat} (h1 : lexLe a b = true) (h2 : lexLe b c = true) :
    lexLe a c = true := by
  rw [lexLe_iff] at h1 h2 ⊢
  omega

theorem insertPair_perm (a : Nat × Nat) (l : List (Nat × Nat)) :
    (insertPair a l).Perm (a :: l) := by
  induction l with
  | nil => simp [insertPair]
  | cons b l ih =>
    simp only [insertPair]
    split
    · exact List.Perm.refl _
    · exact ((ih.cons b).trans (List.Perm.swap a b l))

theorem sortPairs_perm (l : List (Nat × Nat)) : (sortPairs l).Perm l := by
  induction l with
  | nil => exact List.Perm.refl _
  | cons a l ih => exact (insertPair_perm a (sortPairs l)).trans (ih.cons a)

theorem mem_sortPairs {q : Nat × Nat} {l : List (Nat × Nat)} :
    q ∈ sortPairs l ↔ q ∈ l :=
  (sortPairs_perm l).mem_iff

theorem insertPair_pairwise {a : Nat × Nat} {l : List (Nat × Nat)}
    (h : l.Pairwise (fun x y => lexLe x y = true)) :
    (insertPair a l).Pairwise (fun x y => lexLe x y = true) := by
  induction l with
  | nil => simp [insertPair]
  | cons b l ih =>
    simp only [insertPair]
    split
    · rename_i hab
      refine List.Pairwise.cons ?_ h
      intro x hx
      rcases List.mem_cons.mp hx with hx | hx
      · exact hx ▸ hab
      · exact lexLe_trans hab ((List.pairwise_cons.mp h).1 x hx)
    · rename_i hab
      have hba : lexLe b a = true := (lexLe_total a b).resolve_left hab
      rw [List.pairwise_cons] at h
      refine List.Pairwise.cons ?_ (ih h.2)
      intro x hx
      rcases List.mem_cons.mp ((insertPair_perm a l).mem_iff.mp hx) with hx | hx
      · exact hx ▸ hba
      · exact h.1 x hx

theorem sortPairs_pairwise (l : List (Nat × Nat)) :
    (sortPairs l).Pairwise (fun x y => lexLe x y = true) := by
  induction l with
  | nil => simp [sortPairs]
  | cons a l ih => exact insertPair_pairwise ih

/-! ### Basic board lemmas -/

theorem set_getD_self (l : List Nat) (i : Nat) : l.set i (l.getD i 0) = l := by
  induction l generalizing i with
  | nil => simp
  | cons x l ih =>
    cases i with
    | zero => simp
    | succ j => simpa using ih j

/-- Restoring a cleared cell with its previous value gives back the original
board (the `puzzle[pos] = val` rejection path of the hole-digging loop). -/
theorem setCell_restore (b : SudokuBoard) (pos : Nat) :
    setCell (setCell b pos 0) pos (getCell b pos) = b := by
  simp only [setCell, getCell, List.set_set]
  exact set_getD_self b pos

/-! ### Behaviour of the search on boards with no empty cell -/

theorem calculateDomains_emptyPositions_nil {b : SudokuBoard}
    (hb : ∀ p, p < SIZE → getCell b p ≠ 0) :
    (calculateDomains b).emptyPositions = [] := by
  have key : ∀ (ps : List Nat) (d : Domains), (∀ p ∈ ps, getCell b p ≠ 0) →
      d.emptyPositions = [] →
      ((ps.foldl
        (fun d pos =>
          let value := getCell b pos
          if value ≠ 0 then
            updateDomains { d with domains := d.domains.set pos (List.replicate N2 false) }
              pos value
          else
            { d with emptyPositions := d.emptyPositions ++ [pos] }) d).emptyPositions = []) := by
    intro ps
    induction ps with
    | nil => intro d _ hd; simpa using hd
    | cons p ps ih =>
      intro d hps hd
      simp only [List.foldl_cons]
      refine ih _ (fun q hq => hps q (List.mem_cons_of_mem p hq)) ?_
      simp only [if_pos (hps p (List.mem_cons_self p ps))]
      simp [updateDomains, hd]
  exact key (List.range SIZE)
    { domains := List.replicate SIZE (List.replicate N2 true), emptyPositions := [] }
    (fun p hp => hb p (List.mem_range.mp hp)) rfl

theorem getEmptyPosition_of_nil {b : SudokuBoard} {d : Domains} {t : Nat}
    (h : d.emptyPositions = []) : getEmptyPosition b d t = none := by
  simp [getEmptyPosition, h, sortPairs]

/-- A board with no empty cell: `backtracking_count` returns `1 + count`
immediately, for every `max` — even `max = 0` and even on an inconsistent
board, since conflicts between already-assigned cells are never examined. -/
theorem countSolutions_of_full {b : SudokuBoard}
    (hb : ∀ p, p < SIZE → getCell b p ≠ 0) (maxSolutions : Nat) :
    countSolutions b maxSolutions = 1 := by
  have h := calculateDomains_emptyPositions_nil hb
  simp [countSolutions, btCount, getEmptyPosition_of_nil h]

/-- A board with no empty cell: `backtracking` reports success at once and
leaves the board unchanged, even on an inconsistent board. -/
theorem solve_of_full {b : SudokuBoard} (hb : ∀ p, p < SIZE → getCell b p ≠ 0) :
    solve b = (true, b) := by
  have h := calculateDomains_emptyPositions_nil hb
  simp [solve, btSolve, getEmptyPosition_of_nil h]

/-! ### The hole-digging invariant -/

theorem digLoop_count {ps : List Nat} :
    ∀ {b : SudokuBoard} {removed target : Nat}, countSolutions b 2 = 1 →
      countSolutions (digLoop true ps b removed target).1 2 = 1 := by
  induction ps with
  | nil => intro b removed target h; simpa [digLoop] using h
  | cons pos ps ih =>
    intro b removed target h
    simp only [digLoop, Bool.not_true, Bool.false_or]
    by_cases h1 : countSolutions (setCell b pos 0) 2 = 1
    · simp only [h1, beq_self_eq_true, if_true]
      split
      · exact h1
      · exact ih h1
    · have h2 : (countSolutions (setCell b pos 0) 2 == 1) = false := by
        simpa using h1
      simp only [h2, if_false]
      rw [setCell_restore]
      exact ih h

/-! ### Bounds and monotonicity of the counting search -/

theorem btCountLoop_ge {recur : SudokuBoard → Domains → Nat → Nat}
    (hrec : ∀ b1 d1 c, c ≤ recur b1 d1 c) (b : SudokuBoard) (pos : Nat) (d : Domains)
    (m : Nat) : ∀ (ns : List Nat) (c : Nat), c ≤ btCountLoop recur b pos d m ns c := by
  intro ns
  induction ns with
  | nil => intro c; simp [btCountLoop]
  | cons n ns ih =>
    intro c
    simp only [btCountLoop]
    split
    · exact Nat.le_refl c
    · split
      · exact Nat.le_trans (Nat.le_trans (by split <;> simp [hrec]) (ih _)) (Nat.le_refl _)
      · exact ih c

theorem btCount_ge : ∀ (fuel : Nat) (b : SudokuBoard) (d : Domains) (m c : Nat),
    c ≤ btCount fuel b d m c := by
  intro fuel
  induction fuel with
  | zero => intro b d m c; simp [btCount]
  | succ fuel ih =>
    intro b d m c
    simp only [btCount]
    cases h : getEmptyPosition b d (SIZE / 2) with
    | none => exact (by omega : c ≤ 1 + c)
    | some pos => exact btCountLoop_ge (fun b1 d1 c1 => ih b1 d1 m c1) b pos d m _ c

theorem btCountLoop_le {recur : SudokuBoard → Domains → Nat → Nat} {m : Nat}
    (hrec : ∀ b1 d1 c, c < m → recur b1 d1 c ≤ m) (b : SudokuBoard) (pos : Nat)
    (d : Domains) : ∀ (ns : List Nat) (c : Nat), c ≤ m →
      btCountLoop recur b pos d m ns c ≤ m := by
  intro ns
  induction ns with
  | nil => intro c hc; simpa [btCountLoop] using hc
  | cons n ns ih =>
    intro c hc
    simp only [btCountLoop]
    split
    · exact hc
    · rename_i hcm
      have hlt : c < m := Nat.lt_of_not_le (fun h => hcm (Nat.le_of_lt_succ (by omega)))
      split
      · refine ih _ ?_
        split
        · exact hrec _ _ _ hlt
        · exact hc
      · exact ih c hc

theorem btCount_le : ∀ (fuel : Nat) (b : SudokuBoard) (d : Domains) (m c : Nat),
    c < m → btCount fuel b d m c ≤ m := by
  intro fuel
  induction fuel with
  | zero => intro b d m c hc; simp [btCount]; omega
  | succ fuel ih =>
    intro b d m c hc
    simp only [btCount]
    cases h : getEmptyPosition b d (SIZE / 2) with
    | none => exact (by omega : 1 + c ≤ m)
    | some pos =>
      exact btCountLoop_le (fun b1 d1 c1 hc1 => ih b1 d1 m c1 hc1) b pos d _ c (Nat.le_of_lt hc)

theorem btCountLoop_mono {recur1 recur2 : SudokuBoard → Domains → Nat → Nat} {m m' : Nat}
    (hm : m ≤ m')
    (h2ge : ∀ b1 d1 c, c ≤ recur2 b1 d1 c)
    (h1le : ∀ b1 d1 c, c < m → recur1 b1 d1 c ≤ m)
    (hmono : ∀ b1 d1 c c', c ≤ c' → recur1 b1 d1 c ≤ recur2 b1 d1 c')
    (b : SudokuBoard) (pos : Nat) (d : Domains) :
    ∀ (ns : List Nat) (c c' : Nat), c ≤ c' →
      btCountLoop recur1 b pos d m ns c ≤ btCountLoop recur2 b pos d m' ns c' := by
  intro ns
  induction ns with
  | nil => intro c c' hc; simpa [btCountLoop] using hc
  | cons n ns ih =>
    intro c c' hc
    by_cases hcm : c ≥ m
    · have h2 : c' ≤ btCountLoop recur2 b pos d m' (n :: ns) c' :=
        btCountLoop_ge h2ge b pos d m' _ c'
      have h1 : btCountLoop recur1 b pos d m (n :: ns) c = c := by
        simp [btCountLoop, hcm]
      omega
    · by_cases hcm' : c' ≥ m'
      · have h1 : btCountLoop recur1 b pos d m (n :: ns) c ≤ m :=
          btCountLoop_le h1le b pos d (n :: ns) c (by omega)
        have h2 : btCountLoop recur2 b pos d m' (n :: ns) c' = c' := by
          simp [btCountLoop, hcm']
        omega
      · simp only [btCountLoop, if_neg hcm, if_neg hcm']
        split
        · refine ih _ _ ?_
          split
          · exact hmono _ _ _ _ hc
          · exact hc
        · exact ih _ _ hc

theorem btCount_mono : ∀ (fuel : Nat) (b : SudokuBoard) (d : Domains) (m m' c c' : Nat),
    m ≤ m' → c ≤ c' → btCount fuel b d m c ≤ btCount fuel b d m' c' := by
  intro fuel
  induction fuel with
  | zero => intro b d m m' c c' _ hc; simpa [btCount] using hc
  | succ fuel ih =>
    intro b d m m' c c' hm hc
    simp only [btCount]
    cases h : getEmptyPosition b d (SIZE / 2) with
    | none => exact (by omega : 1 + c ≤ 1 + c')
    | some pos =>
      exact btCountLoop_mono hm (fun b1 d1 c1 => btCount_ge fuel b1 d1 m' c1)
        (fun b1 d1 c1 hc1 => btCount_le fuel b1 d1 m c1 hc1)
        (fun b1 d1 c1 c1' hcc => ih b1 d1 m m' c1 c1' hm hcc) b pos d _ c c' hc

/-! ### The `assert!(value > 0)` of `update_domains` never fires -/

theorem possibleValues_one_le {d : Domains} {pos : Nat} :
    ∀ v ∈ possibleValues d pos, 1 ≤ v := by
  intro v hv
  simp only [possibleValues, List.mem_map] at hv
  obtain ⟨q, _, hq⟩ := hv
  omega

theorem getPossibleRanked_snd_one_le {d : Domains} {pos : Nat} :
    ∀ q ∈ getPossibleRanked d pos, 1 ≤ q.2 := by
  intro q hq
  have hq2 := List.mem_of_mem_filter hq
  simp only [List.mem_map] at hq2
  obtain ⟨r, _, hr⟩ := hq2
  subst hr
  simp

theorem getPossible_one_le {b : SudokuBoard} {pos : Nat} {d : Domains} {k : Nat} :
    ∀ v ∈ getPossible b pos d k, 1 ≤ v := by
  intro v hv
  simp only [getPossible] at hv
  split at hv
  · simp only [List.mem_map] at hv
    obtain ⟨q, hq, hqv⟩ := hv
    have hq1 := getPossibleRanked_snd_one_le q (mem_sortPairs.mp hq)
    omega
  · exact possibleValues_one_le v hv

theorem updateDomainsA_eq {d : Domains} {pos value : Nat} (h : 1 ≤ value) :
    updateDomainsA d pos value = some (updateDomains d pos value) := by
  simp [updateDomainsA, h]

theorem btCountLoopA_eq {recur : SudokuBoard → Domains → Nat → Nat}
    {recurA : SudokuBoard → Domains → Nat → Option Nat}
    (hrec : ∀ b1 d1 c, recurA b1 d1 c = some (recur b1 d1 c))
    (b : SudokuBoard) (pos : Nat) (d : Domains) (m : Nat) :
    ∀ (ns : List Nat), (∀ n ∈ ns, 1 ≤ n) → ∀ (c : Nat),
      btCountLoopA recurA b pos d m ns c = some (btCountLoop recur b pos d m ns c) := by
  intro ns
  induction ns with
  | nil => intro _ c; simp [btCountLoopA, btCountLoop]
  | cons n ns ih =>
    intro hns c
    have hn : 1 ≤ n := hns n (List.mem_cons_self n ns)
    have hns2 : ∀ x ∈ ns, 1 ≤ x := fun x hx => hns x (List.mem_cons_of_mem n hx)
    simp only [btCountLoopA, btCountLoop, updateDomainsA_eq hn]
    split
    · rfl
    · split
      · rw [show (if stillPossible (updateDomains d pos n) = true
              then recurA (setCell b pos n) (updateDomains d pos n) c else some c)
            = some (if stillPossible (updateDomains d pos n) = true
              then recur (setCell b pos n) (updateDomains d pos n) c else c) from by
            split
            · exact hrec _ _ _
            · rfl]
        exact ih hns2 _
      · exact ih hns2 c

theorem btCountA_eq : ∀ (fuel : Nat) (b : SudokuBoard) (d : Domains) (m c : Nat),
    btCountA fuel b d m c = some (btCount fuel b d m c) := by
  intro fuel
  induction fuel with
  | zero => intro b d m c; simp [btCountA, btCount]
  | succ fuel ih =>
    intro b d m c
    simp only [btCountA, btCount]
    cases h : getEmptyPosition b d (SIZE / 2) with
    | none => rfl
    | some pos =>
      exact btCountLoopA_eq (fun b1 d1 c1 => ih b1 d1 m c1) b pos d m _
        (fun n hn => getPossible_one_le n hn) c

theorem calculateDomainsA_eq (b : SudokuBoard) :
    calculateDomainsA b = some (calculateDomains b) := by
  have key : ∀ (ps : List Nat) (d : Domains),
      (ps.foldl
        (fun od pos => od.bind (fun d =>
          let value := getCell b pos
          if value ≠ 0 then
            updateDomainsA { d with domains := d.domains.set pos (List.replicate N2 false) }
              pos value
          else some { d with emptyPositions := d.emptyPositions ++ [pos] }))
        (some d)) =
      some (ps.foldl
        (fun d pos =>
          let value := getCell b pos
          if value ≠ 0 then
            updateDomains { d with domains := d.domains.set pos (List.replicate N2 false) }
              pos value
          else
            { d with emptyPositions := d.emptyPositions ++ [pos] }) d) := by
    intro ps
    induction ps with
    | nil => intro d; rfl
    | cons p ps ih =>
      intro d
      simp only [List.foldl_cons, Option.some_bind]
      by_cases hp : getCell b p ≠ 0
      · rw [if_pos hp, if_pos hp, updateDomainsA_eq (by omega)]
        exact ih _
      · rw [if_neg hp, if_neg hp]
        exact ih _
  exact key (List.range SIZE) _

theorem countSolutionsA_eq (b : SudokuBoard) (m : Nat) :
    countSolutionsA b m = some (countSolutions b m) := by
  simp [countSolutionsA, countSolutions, calculateDomainsA_eq, btCountA_eq]

theorem btSolveLoopA_eq {recur : SudokuBoard → Domains → Bool × SudokuBoard}
    {recurA : SudokuBoard → Domains → Option (Bool × SudokuBoard)}
    (hrec : ∀ b1 d1, recurA b1 d1 = some (recur b1 d1))
    (b : SudokuBoard) (pos : Nat) (d : Domains) :
    ∀ (ns : List Nat), (∀ n ∈ ns, 1 ≤ n) →
      btSolveLoopA recurA b pos d ns = some (btSolveLoop recur b pos d ns) := by
  intro ns
  induction ns with
  | nil => intro _; simp [btSolveLoopA, btSolveLoop]
  | cons n ns ih =>
    intro hns
    have hn : 1 ≤ n := hns n (List.mem_cons_self n ns)
    have hns2 : ∀ x ∈ ns, 1 ≤ x := fun x hx => hns x (List.mem_cons_of_mem n hx)
    simp only [btSolveLoopA, btSolveLoop, updateDomainsA_eq hn]
    split
    · split
      · simp only [hrec]
        split <;> first | rfl | exact ih hns2
      · exact ih hns2
    · exact ih hns2

theorem btSolveA_eq : ∀ (fuel : Nat) (b : SudokuBoard) (d : Domains),
    btSolveA fuel b d = some (btSolve fuel b d) := by
  intro fuel
  induction fuel with
  | zero => intro b d; simp [btSolveA, btSolve]
  | succ fuel ih =>
    intro b d
    simp only [btSolveA, btSolve]
    cases h : getEmptyPosition b d (SIZE / 2) with
    | none => rfl
    | some pos =>
      exact btSolveLoopA_eq (fun b1 d1 => ih b1 d1) b pos d _
        (fun n hn => getPossible_one_le n hn)

theorem solveA_eq (b : SudokuBoard) : solveA b = some (solve b) := by
  simp [solveA, solve, calculateDomainsA_eq, btSolveA_eq]

theorem btAllLoopA_eq
    {recur : SudokuBoard → Domains → Nat → List SudokuBoard → Nat × List SudokuBoard}
    {recurA : SudokuBoard → Domains → Nat → List SudokuBoard →
      Option (Nat × List SudokuBoard)}
    (hrec : ∀ b1 d1 c s, recurA b1 d1 c s = some (recur b1 d1 c s))
    (b : SudokuBoard) (pos : Nat) (d : Domains) (m : Nat) :
    ∀ (ns : List Nat), (∀ n ∈ ns, 1 ≤ n) → ∀ (c : Nat) (sols : List SudokuBoard),
      btAllLoopA recurA b pos d m ns c sols =
        some (btAllLoop recur b pos d m ns c sols) := by
  intro ns
  induction ns with
  | nil => intro _ c sols; simp [btAllLoopA, btAllLoop]
  | cons n ns ih =>
    intro hns c sols
    have hn : 1 ≤ n := hns n (List.mem_cons_self n ns)
    have hns2 : ∀ x ∈ ns, 1 ≤ x := fun x hx => hns x (List.mem_cons_of_mem n hx)
    simp only [btAllLoopA, btAllLoop, updateDomainsA_eq hn]
    split
    · rfl
    · split
      · rw [show (if stillPossible (updateDomains d pos n) = true
              then recurA (setCell b pos n) (updateDomains d pos n) c sols
              else some (c, sols))
            = some (if stillPossible (updateDomains d pos n) = true
              then recur (setCell b pos n) (updateDomains d pos n) c sols else (c, sols)) from by
            split
            · exact hrec _ _ _ _
            · rfl]
        exact ih hns2 _ _
      · exact ih hns2 c sols

theorem btAllA_eq : ∀ (fuel : Nat) (b : SudokuBoard) (d : Domains) (m c : Nat)
    (sols : List SudokuBoard), btAllA fuel b d m c sols = some (btAll fuel b d m c sols) := by
  intro fuel
  induction fuel with
  | zero => intro b d m c sols; simp [btAllA, btAll]
  | succ fuel ih =>
    intro b d m c sols
    simp only [btAllA, btAll]
    cases h : getEmptyPosition b d (SIZE / 2) with
    | none => rfl
    | some pos =>
      exact btAllLoopA_eq (fun b1 d1 c1 s1 => ih b1 d1 m c1 s1) b pos d m _
        (fun n hn => getPossible_one_le n hn) c sols

theorem solveAllA_eq (b : SudokuBoard) (m : Nat) :
    solveAllA b m = some (solveAll b m) := by
  simp [solveAllA, solveAll, calculateDomainsA_eq, btAllA_eq]

/-! ### Parsing and serialization -/

/-- The characters accepted by the parser: a dot or any decimal digit,
including the zero digit. -/
def validBoardChar (c : Char) : Prop := c = '.' ∨ ('0' ≤ c ∧ c ≤ '9')

instance (c : Char) : Decidable (validBoardChar c) := by
  unfold validBoardChar
  infer_instance

theorem toNat_le_of_le {c u : Char} (h : c ≤ u) : c.toNat ≤ u.toNat := by
  have := Char.le_def.mp h
  simpa [Char.toNat] using this

theorem charLen_of_valid {c : Char} (h : validBoardChar c) : charLen c = 1 := by
  rcases h with h | h
  · subst h; rfl
  · have h9 : c.toNat ≤ 57 := toNat_le_of_le h.2
    simp only [charLen]
    rw [if_pos (by omega)]

theorem strByteLen_of_valid {s : List Char} (h : ∀ c ∈ s, validBoardChar c) :
    strByteLen s = s.length := by
  induction s with
  | nil => rfl
  | cons c cs ih =>
    have h1 := charLen_of_valid (h c (List.mem_cons_self c cs))
    have h2 := ih (fun x hx => h x (List.mem_cons_of_mem c hx))
    simp only [strByteLen, List.map_cons, List.sum_cons, List.length_cons] at h2 ⊢
    omega

theorem parseCells_ok_of_valid {s : List Char} (h : ∀ c ∈ s, validBoardChar c) :
    ∃ v, parseCells s = Except.ok v ∧ v.length = s.length ∧ ∀ x ∈ v, x ≤ N2 := by
  induction s with
  | nil => exact ⟨[], rfl, rfl, by simp⟩
  | cons c cs ih =>
    obtain ⟨v, hv, hlen, hval⟩ := ih (fun x hx => h x (List.mem_cons_of_mem c hx))
    have hc := h c (List.mem_cons_self c cs)
    by_cases hdot : c = '.'
    · refine ⟨0 :: v, ?_, by simp [hlen], ?_⟩
      · simp [parseCells, hdot, hv]
      · intro x hx
        rcases List.mem_cons.mp hx with hx | hx
        · subst hx; simp [N2_eq]
        · exact hval x hx
    · have hdig : '0' ≤ c ∧ c ≤ '9' := hc.resolve_left hdot
      have ht : toDigit10 c = some (c.toNat - '0'.toNat) := by simp [toDigit10, hdig]
      refine ⟨(c.toNat - '0'.toNat) :: v, ?_, by simp [hlen], ?_⟩
      · simp [parseCells, hdot, ht, hv]
      · intro x hx
        rcases List.mem_cons.mp hx with hx | hx
        · subst hx
          have h9 : c.toNat ≤ 57 := toNat_le_of_le hdig.2
          have h0 : ('0' : Char).toNat = 48 := rfl
          rw [N2_eq]
          omega
        · exact hval x hx

theorem parseCells_valid_of_ok {s : List Char} :
    ∀ {v : List Nat}, parseCells s = Except.ok v → ∀ c ∈ s, validBoardChar c := by
  induction s with
  | nil => intro v _ c hc; simp at hc
  | cons c cs ih =>
    intro v h x hx
    have hcell : ∃ w, (if c = '.' then Except.ok 0 else
        match toDigit10 c with
        | some d => Except.ok d
        | none => Except.error "Invalid character") = (Except.ok w : Except String Nat) := by
      by_cases hdot : c = '.'
      · exact ⟨0, by simp [hdot]⟩
      · cases htd : toDigit10 c with
        | none =>
          exfalso
          simp only [parseCells, if_neg hdot, htd] at h
          cases h
        | some d => exact ⟨d, by simp [hdot, htd]⟩
    obtain ⟨w, hw⟩ := hcell
    have hrest : ∃ u, parseCells cs = Except.ok u := by
      cases hr : parseCells cs with
      | error e =>
        exfalso
        simp only [parseCells, hw, hr] at h
        cases h
      | ok u => exact ⟨u, rfl⟩
    obtain ⟨u, hu⟩ := hrest
    rcases List.mem_cons.mp hx with hx | hx
    · subst hx
      by_cases hdot : x = '.'
      · exact Or.inl hdot
      · refine Or.inr ?_
        cases htd : toDigit10 x with
        | none =>
          exfalso
          simp only [parseCells, if_neg hdot, htd] at h
          cases h
        | some d =>
          simp only [toDigit10] at htd
          split at htd
          · assumption
          · exact absurd htd (by simp)
    · exact ih hu x hx

theorem tryFromStr_ok_iff_valid (s : List Char) :
    (tryFromStr s).isOk = true ↔ (strByteLen s = SIZE ∧ ∀ c ∈ s, validBoardChar c) := by
  constructor
  · intro h
    simp only [tryFromStr] at h
    split at h
    · simp [Except.isOk, Except.toBool] at h
    · rename_i hblen
      have hblen2 : strByteLen s = SIZE := by omega
      refine ⟨hblen2, ?_⟩
      cases hp : parseCells s with
      | error e =>
        rw [hp] at h
        simp [Except.isOk, Except.toBool] at h
      | ok v => exact parseCells_valid_of_ok hp
  · intro ⟨hblen, hvalid⟩
    obtain ⟨v, hv, hlen, hval⟩ := parseCells_ok_of_valid hvalid
    have hslen : s.length = SIZE := by
      rw [← strByteLen_of_valid hvalid]; exact hblen
    simp only [tryFromStr, hblen, if_neg (by omega : ¬SIZE ≠ SIZE), hv]
    rw [if_pos (by omega : v.length = SIZE)]
    rw [if_pos (by
      apply List.all_eq_true.mpr
      intro x hx
      exact decide_eq_true (hval x hx))]
    rfl

theorem charLen_renderCell {v : Nat} (hv : v ≤ N2) : charLen (renderCell v) = 1 := by
  rw [N2_eq] at hv
  interval_cases v <;> rfl

theorem cellParse_renderCell {v : Nat} (hv : v ≤ N2) :
    (if renderCell v = '.' then Except.ok 0 else
      match toDigit10 (renderCell v) with
      | some d => Except.ok d
      | none => Except.error "Invalid character") = (Except.ok v : Except String Nat) := by
  rw [N2_eq] at hv
  interval_cases v <;> rfl

theorem parseCells_toLineString {b : List Nat} (hb : ∀ v ∈ b, v ≤ N2) :
    parseCells (toLineString b) = Except.ok b := by
  induction b with
  | nil => rfl
  | cons v bs ih =>
    have h1 := cellParse_renderCell (hb v (List.mem_cons_self v bs))
    have h2 : parseCells (List.map renderCell bs) = Except.ok bs := by
      simpa [toLineString] using ih (fun x hx => hb x (List.mem_cons_of_mem v hx))
    simp only [toLineString, List.map_cons, parseCells, h1, h2]

theorem strByteLen_toLineString {b : List Nat} (hb : ∀ v ∈ b, v ≤ N2) :
    strByteLen (toLineString b) = b.length := by
  induction b with
  | nil => rfl
  | cons v bs ih =>
    have h1 := charLen_renderCell (hb v (List.mem_cons_self v bs))
    have h2 := ih (fun x hx => hb x (List.mem_cons_of_mem v hx))
    simp only [toLineString, List.map_cons, strByteLen, List.sum_cons, List.length_cons]
      at h2 ⊢
    omega

/-! ### Characterisation of the value ordering of `get_possible` -/

theorem withIdx_map_fst : ∀ (l : List α) (n : Nat),
    (withIdx n l).map Prod.fst = (List.range l.length).map (fun i => n + i) := by
  intro l
  induction l with
  | nil => intro n; rfl
  | cons x xs ih =>
    intro n
    have h1 : (withIdx n (x :: xs)).map Prod.fst = n :: (withIdx (n + 1) xs).map Prod.fst := rfl
    rw [h1, ih (n + 1)]
    have h2 : (List.range (x :: xs).length).map (fun i => n + i)
        = n :: ((List.range xs.length).map Nat.succ).map (fun i => n + i) := by
      rw [List.length_cons, List.range_succ_eq_map, List.map_cons]
      simp
    rw [h2, List.map_map]
    refine congrArg (fun t => n :: t) ?_
    apply List.map_congr_left
    intro i _
    show n + 1 + i = n + Nat.succ i
    omega

theorem withIdx_mem : ∀ {l : List α} {n : Nat} {q : Nat × α}, q ∈ withIdx n l →
    ∃ i, i < l.length ∧ q.1 = n + i ∧ (∀ dflt, q.2 = l.getD i dflt) := by
  intro l
  induction l with
  | nil => intro n q hq; simp [withIdx] at hq
  | cons x xs ih =>
    intro n q hq
    rcases List.mem_cons.mp hq with hq | hq
    · exact ⟨0, by simp, by simp [hq], fun dflt => by simp [hq]⟩
    · obtain ⟨i, hi, h1, h2⟩ := ih hq
      exact ⟨i + 1, by simpa using hi, by omega, fun dflt => by simpa using h2 dflt⟩

theorem map_snd_filter_snd (p : β → Bool) : ∀ (l : List (α × β)),
    (l.filter (fun q => p q.2)).map Prod.snd = (l.map Prod.snd).filter p := by
  intro l
  induction l with
  | nil => rfl
  | cons q l ih =>
    by_cases hq : p q.2
    · simp [List.filter_cons, hq, ih]
    · simp [List.filter_cons, hq, ih]

theorem filter_contains_sublist : ∀ {sub l : List Nat}, sub.Sublist l → l.Nodup →
    l.filter (fun v => sub.contains v) = sub := by
  intro sub l h
  induction h with
  | slnil => intro _; rfl
  | cons y h ih =>
    rename_i sub l
    intro hn
    have hyl : y ∉ l := (List.nodup_cons.mp hn).1
    have hysub : y ∉ sub := fun hy => hyl (h.subset hy)
    rw [List.filter_cons, if_neg (by simpa using hysub), ih (List.nodup_cons.mp hn).2]
  | cons₂ y h ih =>
    rename_i sub l
    intro hn
    have hyl : y ∉ l := (List.nodup_cons.mp hn).1
    rw [List.filter_cons, if_pos (by simp)]
    refine congrArg (fun t => y :: t) ?_
    have hcongr : ∀ x ∈ l, ((y :: sub).contains x) = (sub.contains x) := by
      intro x hx
      have hxy : ¬x = y := fun he => hyl (he ▸ hx)
      by_cases hxs : x ∈ sub
      · rw [(by simpa using List.mem_cons_of_mem y hxs : ((y :: sub).contains x) = true),
          (by simpa using hxs : (sub.contains x) = true)]
      · have hxys : x ∉ y :: sub := by
          intro hc
          rcases List.mem_cons.mp hc with hc | hc
          · exact hxy hc
          · exact hxs hc
        rw [(by simpa using hxys : ((y :: sub).contains x) = false),
          (by simpa using hxs : (sub.contains x) = false)]
    rw [List.filter_congr hcongr, ih (List.nodup_cons.mp hn).2]

theorem countsFold_spec (d : Domains) :
    ∀ (l : List Nat) (acc : List Nat), acc.length = N2 →
      (∀ p ∈ l, (domainsGet d p).length = N2) →
      (l.foldl
        (fun acc p => List.zipWith (fun a x => a + if x then 0 else 1) acc (domainsGet d p))
        acc).length = N2 ∧
      (∀ i, i < N2 →
        (l.foldl
          (fun acc p => List.zipWith (fun a x => a + if x then 0 else 1) acc (domainsGet d p))
          acc).getD i 0
        = acc.getD i 0 + (l.filter (fun p => !((domainsGet d p).getD i true))).length) := by
  intro l
  induction l with
  | nil =>
    intro acc hacc _
    exact ⟨hacc, fun i _ => by simp⟩
  | cons p l ih =>
    intro acc hacc hl
    have hrow : (domainsGet d p).length = N2 := hl p (List.mem_cons_self p l)
    have hacc2 : (List.zipWith (fun a x => a + if x then 0 else 1) acc (domainsGet d p)).length
        = N2 := by
      rw [List.length_zipWith, hacc, hrow]
      omega
    obtain ⟨hL, hG⟩ := ih _ hacc2 (fun q hq => hl q (List.mem_cons_of_mem p hq))
    refine ⟨by simpa [List.foldl_cons] using hL, ?_⟩
    intro i hi
    have hi1 : i < acc.length := by omega
    have hi2 : i < (domainsGet d p).length := by omega
    have hz : (List.zipWith (fun a x => a + if x then 0 else 1) acc (domainsGet d p)).getD i 0
        = acc.getD i 0 + if (domainsGet d p).getD i true then 0 else 1 := by
      rw [List.getD_eq_getElem _ _ (by omega), List.getD_eq_getElem _ _ hi1,
        List.getD_eq_getElem _ _ hi2, List.getElem_zipWith]
    rw [List.foldl_cons, hG i hi, hz, List.filter_cons]
    cases hbit : (domainsGet d p).getD i true with
    | true => simp [hbit]
    | false =>
      simp only [Bool.not_false, if_pos, List.length_cons]
      simp
      omega

theorem possibleValues_sublist (d : Domains) (pos : Nat)
    (hpos : (domainsGet d pos).length = N2) :
    (possibleValues d pos).Sublist ((List.range N2).map (fun i => i + 1)) := by
  have h1 : ((withIdx 0 (domainsGet d pos)).filter (fun q => q.2)).Sublist
      (withIdx 0 (domainsGet d pos)) := List.filter_sublist _
  have h2 := h1.map (fun (q : Nat × Bool) => q.1 + 1)
  have h3 : (withIdx 0 (domainsGet d pos)).map (fun (q : Nat × Bool) => q.1 + 1)
      = (List.range N2).map (fun i => i + 1) := by
    calc (withIdx 0 (domainsGet d pos)).map (fun (q : Nat × Bool) => q.1 + 1)
        = ((withIdx 0 (domainsGet d pos)).map Prod.fst).map (fun i => i + 1) := by
          rw [List.map_map]; rfl
      _ = ((List.range (domainsGet d pos).length).map (fun i => 0 + i)).map
            (fun i => i + 1) := by rw [withIdx_map_fst]
      _ = (List.range N2).map (fun i => i + 1) := by
          rw [hpos, List.map_map]
          apply List.map_congr_left
          intro i _
          show 0 + i + 1 = i + 1
          omega
  exact h3 ▸ h2

theorem getPossibleCounts_spec {d : Domains}
    (hWF : ∀ p ∈ d.emptyPositions, (domainsGet d p).length = N2) :
    (getPossibleCounts d).length = N2 ∧
      ∀ i, i < N2 → (getPossibleCounts d).getD i 0 = alreadyMissingCount d (i + 1) := by
  obtain ⟨hL, hG⟩ := countsFold_spec d d.emptyPositions (List.replicate N2 0) (by simp) hWF
  refine ⟨hL, fun i hi => ?_⟩
  rw [show getPossibleCounts d = (d.emptyPositions.foldl
    (fun acc p => List.zipWith (fun a x => a + if x then 0 else 1) acc (domainsGet d p))
    (List.replicate N2 0)) from rfl, hG i hi]
  simp [alreadyMissingCount]

theorem getPossibleRanked_key {d : Domains} {pos : Nat}
    (hWF : ∀ p ∈ d.emptyPositions, (domainsGet d p).length = N2) :
    ∀ q ∈ getPossibleRanked d pos, q.1 = alreadyMissingCount d q.2 := by
  obtain ⟨hCL, hCG⟩ := getPossibleCounts_spec hWF
  intro q hq
  have hq2 := List.mem_of_mem_filter hq
  simp only [List.mem_map] at hq2
  obtain ⟨r, hr1, hr2⟩ := hq2
  obtain ⟨i, hi, hfst, hsnd⟩ := withIdx_mem hr1
  subst hr2
  have hiN : i < N2 := by omega
  have hr2 : r.2 = alreadyMissingCount d (i + 1) := by
    rw [hsnd 0, hCG i hiN]
  have hr1f : r.1 = i := by omega
  rw [hr2, hr1f]

theorem getPossibleRanked_map_snd {d : Domains} {pos : Nat}
    (hWF : ∀ p ∈ d.emptyPositions, (domainsGet d p).length = N2)
    (hpos : (domainsGet d pos).length = N2) :
    (getPossibleRanked d pos).map Prod.snd = possibleValues d pos := by
  obtain ⟨hCL, _⟩ := getPossibleCounts_spec hWF
  have hsnd : ((withIdx 0 (getPossibleCounts d)).map
      (fun (q : Nat × Nat) => (q.2, q.1 + 1))).map Prod.snd
      = (List.range N2).map (fun i => i + 1) := by
    calc ((withIdx 0 (getPossibleCounts d)).map
          (fun (q : Nat × Nat) => (q.2, q.1 + 1))).map Prod.snd
        = (withIdx 0 (getPossibleCounts d)).map (fun (q : Nat × Nat) => q.1 + 1) := by
          rw [List.map_map]; rfl
      _ = ((withIdx 0 (getPossibleCounts d)).map Prod.fst).map (fun i => i + 1) := by
          rw [List.map_map]; rfl
      _ = ((List.range (getPossibleCounts d).length).map (fun i => 0 + i)).map
            (fun i => i + 1) := by rw [withIdx_map_fst]
      _ = (List.range N2).map (fun i => i + 1) := by
          rw [hCL, List.map_map]
          apply List.map_congr_left
          intro i _
          show 0 + i + 1 = i + 1
          omega
  rw [getPossibleRanked, map_snd_filter_snd, hsnd]
  exact filter_contains_sublist (possibleValues_sublist d pos hpos) (by decide)

/-! ## Claim theorems -/

/-- Claim C1: every puzzle produced by the hole-digging phase of
`Generator::generate` with `unique_solution(true)` — starting from any fully
filled solution board, for any removal order and any difficulty target, the
two parameters that abstract the seeded rng and the configured difficulty —
satisfies `count_solutions(2) == 1` on the returned puzzle board: a removal is
kept only when that very check passes, and the check holds on the full
starting board. -/
theorem generator_unique_puzzle_count (solution : SudokuBoard) (positions : List Nat)
    (emptyTarget : Nat) (hfull : ∀ p, p < SIZE → getCell solution p ≠ 0) :
    countSolutions (digHoles true solution positions emptyTarget).1 2 = 1 :=
  digLoop_count (countSolutions_of_full hfull 2)

theorem generator_unique_puzzle_count_witness :
    (∀ p, p < SIZE → getCell allOnes p ≠ 0) ∧
      countSolutions (digHoles true allOnes [0] 35).1 2 = 1 :=
  ⟨by decide, generator_unique_puzzle_count allOnes [0] 35 (by decide)⟩

/-- Claim C2 (the code contradicts it): the perturbation phase of
`SudokuBoard::generate` draws its cells from a vector built by iterating a
`std::collections::HashSet`, whose iteration order is randomized per set
instance and is not derived from the seed.  Two legitimate iteration orders of
the very same empty-cell set of a diagonal-filled board (ascending and
descending) make the phase target different cells at the same rng draw, so the
generated board is not a function of the seed alone. -/
theorem generate_seed_order_dependence :
    diagEmptyAsc.reverse.Perm diagEmptyAsc ∧
      perturbChoice diagEmptyAsc 0 ≠ perturbChoice diagEmptyAsc.reverse 0 :=
  ⟨List.reverse_perm _, by decide⟩

/-- Claim C3 counterexample: on a board with no empty cell (all ones),
`count_solutions(0)` returns 1, which exceeds `max = 0` — the base case
increments the counter before the cap is ever consulted. -/
theorem count_solutions_le_max_counterexample :
    countSolutions allOnes 0 = 1 ∧ ¬(countSolutions allOnes 0 ≤ 0) := by
  have h := countSolutions_of_full (b := allOnes) (by decide) 0
  exact ⟨h, by omega⟩

/-- Claim C3 (amended): `count_solutions(max)` is at most `max` whenever
`max ≥ 1` (for `max = 0` a board with no empty cell returns 1, see the
counterexample), and it is monotonically non-decreasing in `max`. -/
theorem count_solutions_le_max_and_mono (b : SudokuBoard) (maxSolutions maxSolutions2 : Nat) :
    (1 ≤ maxSolutions → countSolutions b maxSolutions ≤ maxSolutions) ∧
    (maxSolutions ≤ maxSolutions2 →
      countSolutions b maxSolutions ≤ countSolutions b maxSolutions2) := by
  constructor
  · intro h
    exact btCount_le (SIZE + 1) b (calculateDomains b) maxSolutions 0 (by omega)
  · intro h
    exact btCount_mono (SIZE + 1) b (calculateDomains b) maxSolutions maxSolutions2 0 0 h
      (Nat.le_refl 0)

theorem count_solutions_le_max_and_mono_witness :
    countSolutions allOnes 1 ≤ 1 ∧ countSolutions allOnes 1 ≤ countSolutions allOnes 2 :=
  ⟨(count_solutions_le_max_and_mono allOnes 1 2).1 (by decide),
   (count_solutions_le_max_and_mono allOnes 1 2).2 (by decide)⟩

/-- Claim C4 counterexample: the all-ones board is fully filled and
contradictory (cells 0 and 1 lie in the same row and both hold 1), yet
`solve` returns `true` and `count_solutions` returns 1, not 0 — conflicts
among already-filled cells are never re-examined by the search. -/
theorem contradictory_board_counterexample :
    getCell allOnes 0 = 1 ∧ getCell allOnes 1 = 1 ∧ 0 / N2 = 1 / N2 ∧
      (solve allOnes).1 = true ∧ countSolutions allOnes 3 = 1 := by
  refine ⟨by decide, by decide, by decide, ?_, ?_⟩
  · rw [solve_of_full (by decide)]
  · exact countSolutions_of_full (by decide) 3

/-- Claim C4 (amended): the search never re-examines conflicts among the
initially filled cells; on every board with no empty cell — even one
containing two equal non-zero digits in the same row — `solve()` returns
`true` and `count_solutions(max)` returns 1 for every `max`, rather than the
`false` and 0 the original claim predicts for contradictory boards. -/
theorem contradictory_full_board_behavior (b : SudokuBoard)
    (hfull : ∀ p, p < SIZE → getCell b p ≠ 0) :
    (solve b).1 = true ∧ ∀ maxSolutions, countSolutions b maxSolutions = 1 :=
  ⟨by rw [solve_of_full hfull], fun m => countSolutions_of_full hfull m⟩

theorem contradictory_full_board_behavior_witness :
    (∀ p, p < SIZE → getCell allOnes p ≠ 0) ∧
      ((solve allOnes).1 = true ∧ ∀ m, countSolutions allOnes m = 1) :=
  ⟨by decide, contradictory_full_board_behavior allOnes (by decide)⟩

set_option maxHeartbeats 1000000 in
/-- Claim C5: for every position, the adjacency iterator yields exactly 20
pairwise-distinct positions, never the position itself, and in exactly the
order required by the spec: all row peers left-to-right, then all column peers
top-to-bottom, then the remaining block peers in row-major block order,
skipping cells sharing the row or column. -/
theorem adjacent_positions_spec :
    ∀ pos, pos < SIZE →
      (adjacentList pos = specPeerList pos ∧ (adjacentList pos).length = 20 ∧
        (adjacentList pos).Nodup ∧ pos ∉ adjacentList pos) := by decide

theorem adjacent_positions_spec_witness :
    10 < SIZE ∧ (adjacentList 10 = specPeerList 10 ∧ (adjacentList 10).length = 20 ∧
      (adjacentList 10).Nodup ∧ 10 ∉ adjacentList 10) :=
  ⟨by decide, adjacent_positions_spec 10 (by decide)⟩

set_option maxRecDepth 4000 in
/-- Claim C6 counterexample: the 81-character string of a zero digit followed
by 80 dots is accepted by the parser — `char::to_digit(10)` accepts '0', which
then denotes an empty cell — although the claim says every character other
than '1'-'9' and '.' is rejected. -/
theorem tryFrom_zero_char_counterexample :
    (tryFromStr zeroDotString).isOk = true ∧
      ¬(∀ c ∈ zeroDotString, c = '.' ∨ ('1' ≤ c ∧ c ≤ '9')) := by
  exact ⟨by decide, by decide⟩

/-- Claim C6 (amended): board construction from a string succeeds exactly when
the byte length is 81 and every character is a dot or a decimal digit
'0'-'9' — the zero digit is accepted too and parses as an empty cell. -/
theorem tryFrom_ok_iff (s : List Char) :
    (tryFromStr s).isOk = true ↔
      (strByteLen s = SIZE ∧ ∀ c ∈ s, c = '.' ∨ ('0' ≤ c ∧ c ≤ '9')) := by
  simpa [validBoardChar] using tryFromStr_ok_iff_valid s

set_option maxRecDepth 10000 in
set_option maxHeartbeats 1000000 in
/-- Claim C7 counterexample: on board `b7` the minimum-remaining-values rule
chooses cell 11, whose candidates 2, 3, 4, 7 exceed the threshold of 3; the
code returns them in the order [3, 2, 4, 7], while ranking ascending by the
number of other empty cells that would lose the digit if placed at cell 11 —
the order stated by the claim — gives [2, 7, 4, 3]. -/
theorem get_possible_lcv_counterexample :
    getEmptyPosition b7 (calculateDomains b7) (SIZE / 2) = some 11 ∧
    N < (possibleValues (calculateDomains b7) 11).length ∧
    getPossible b7 11 (calculateDomains b7) N = [3, 2, 4, 7] ∧
    claimLcvOrder b7 11 (calculateDomains b7) = [2, 7, 4, 3] ∧
    getPossible b7 11 (calculateDomains b7) N ≠ claimLcvOrder b7 11 (calculateDomains b7) :=
  ⟨by decide, by decide, by decide, by decide, by decide⟩

/-- Claim C7 (amended): whenever the chosen cell has more than 3 candidate
values, `get_possible` returns the candidates ranked ascending by the number
of empty cells anywhere on the board whose domain already excludes the digit,
with ties by digit order; with 3 or fewer candidates the ascending digit order
is used.  (The code does not compute the would-lose-if-placed-here metric the
original claim describes, see the counterexample.) -/
theorem get_possible_ordering (b : SudokuBoard) (d : Domains) (pos : Nat)
    (hWF : ∀ p ∈ d.emptyPositions, (domainsGet d p).length = N2)
    (hpos : (domainsGet d pos).length = N2) :
    (N < (possibleValues d pos).length →
      (getPossible b pos d N).Perm (possibleValues d pos) ∧
      (getPossible b pos d N).Pairwise (fun v w =>
        alreadyMissingCount d v < alreadyMissingCount d w ∨
          (alreadyMissingCount d v = alreadyMissingCount d w ∧ v ≤ w))) ∧
    ((possibleValues d pos).length ≤ N → getPossible b pos d N = possibleValues d pos) := by
  constructor
  · intro hlen
    have hGP : getPossible b pos d N
        = (sortPairs (getPossibleRanked d pos)).map (fun q => q.2) := by
      simp only [getPossible]
      rw [if_pos hlen]
    constructor
    · rw [hGP]
      have hperm : ((sortPairs (getPossibleRanked d pos)).map Prod.snd).Perm
          ((getPossibleRanked d pos).map Prod.snd) :=
        (sortPairs_perm (getPossibleRanked d pos)).map Prod.snd
      rw [getPossibleRanked_map_snd hWF hpos] at hperm
      exact hperm
    · rw [hGP, List.pairwise_map]
      refine (sortPairs_pairwise (getPossibleRanked d pos)).imp_of_mem ?_
      intro q r hq hr hqr
      have hkq := getPossibleRanked_key hWF q (mem_sortPairs.mp hq)
      have hkr := getPossibleRanked_key hWF r (mem_sortPairs.mp hr)
      rw [lexLe_iff] at hqr
      rw [← hkq, ← hkr]
      exact hqr
  · intro hlen
    simp only [getPossible]
    rw [if_neg (by omega)]

set_option maxRecDepth 10000 in
set_option maxHeartbeats 1000000 in
theorem get_possible_ordering_witness :
    ((∀ p ∈ (calculateDomains b7).emptyPositions,
        (domainsGet (calculateDomains b7) p).length = N2) ∧
      (domainsGet (calculateDomains b7) 11).length = N2 ∧
      N < (possibleValues (calculateDomains b7) 11).length) ∧
    ((getPossible b7 11 (calculateDomains b7) N).Perm
        (possibleValues (calculateDomains b7) 11) ∧
      (getPossible b7 11 (calculateDomains b7) N).Pairwise (fun v w =>
        alreadyMissingCount (calculateDomains b7) v
            < alreadyMissingCount (calculateDomains b7) w ∨
          (alreadyMissingCount (calculateDomains b7) v
              = alreadyMissingCount (calculateDomains b7) w ∧ v ≤ w))) :=
  ⟨⟨by decide, by decide, by decide⟩,
    (get_possible_ordering b7 (calculateDomains b7) 11 (by decide) (by decide)).1 (by decide)⟩

/-- Claim C8: round trip — for every valid board (81 cells, each value at most
9), parsing the line string `to_line_string(B)` succeeds and yields exactly
`B`. -/
theorem to_line_string_roundtrip (b : SudokuBoard) (hlen : b.length = SIZE)
    (hval : ∀ v ∈ b, v ≤ N2) : tryFromStr (toLineString b) = Except.ok b := by
  have hb : strByteLen (toLineString b) = SIZE := by
    rw [strByteLen_toLineString hval, hlen]
  have hp := parseCells_toLineString hval
  simp only [tryFromStr, hb, if_neg (by omega : ¬SIZE ≠ SIZE), hp]
  rw [if_pos (by omega : b.length = SIZE)]
  rw [if_pos (by
    apply List.all_eq_true.mpr
    intro x hx
    exact decide_eq_true (hval x hx))]

set_option maxRecDepth 4000 in
theorem to_line_string_roundtrip_witness :
    (allOnes.length = SIZE ∧ (∀ v ∈ allOnes, v ≤ N2)) ∧
      tryFromStr (toLineString allOnes) = Except.ok allOnes :=
  ⟨⟨by decide, by decide⟩, to_line_string_roundtrip allOnes (by decide) (by decide)⟩

/-- Claim C9: on every well-formed board, `count_solutions`, `solve` and
`solve_all` run to completion with every internal `update_domains` call
passing a value ≥ 1 — the assertion-instrumented variants return `some` of the
plain results, never the `none` that would model the panic of
`assert!(value > 0)`; an unsatisfiable board thus yields the ordinary
`false` / 0 / empty-collection results. -/
theorem search_no_assertion_failure (b : SudokuBoard) (maxSolutions : Nat)
    (hlen : b.length = SIZE) (hval : ∀ v ∈ b, v ≤ N2) :
    countSolutionsA b maxSolutions = some (countSolutions b maxSolutions) ∧
      solveA b = some (solve b) ∧
      solveAllA b maxSolutions = some (solveAll b maxSolutions) :=
  ⟨countSolutionsA_eq b maxSolutions, solveA_eq b, solveAllA_eq b maxSolutions⟩

theorem search_no_assertion_failure_witness :
    (allOnes.length = SIZE ∧ (∀ v ∈ allOnes, v ≤ N2)) ∧
      (countSolutionsA allOnes 1 = some (countSolutions allOnes 1) ∧
        solveA allOnes = some (solve allOnes) ∧
        solveAllA allOnes 1 = some (solveAll allOnes 1)) :=
  ⟨⟨by decide, by decide⟩, search_no_assertion_failure allOnes 1 (by decide) (by decide)⟩
